import Mathlib

/-!
Verification of the podcast-rag ingestion/retrieval pipeline.

Python strings are embedded as lists of characters (`PyStr`), so that
`str.strip`, slicing and concatenation become ordinary list operations.
Fallible external services (video metadata, transcript API, vector index,
reranker) are embedded as function-valued records returning `Except`.
-/

set_option autoImplicit false

namespace PodcastRag

/-- Python strings, embedded as lists of unicode characters. -/
abbrev PyStr := List Char

/-- Characters treated as whitespace by Python's `str.strip`. -/
def pyIsSpace (c : Char) : Bool :=
  c = ' ' || c = '\t' || c = '\n' || c = '\r' || c = '\x0b' || c = '\x0c'

/-- Python `s.strip()`: remove leading and trailing whitespace. -/
def pyStrip (s : PyStr) : PyStr :=
  ((s.dropWhile pyIsSpace).reverse.dropWhile pyIsSpace).reverse

/-- Python `s[-k:]`. For `k = 0` this is `s[0:]`, i.e. the whole string;
for `k > 0` it is the trailing `min k (len s)` characters. -/
def pyTailSlice (s : PyStr) (k : Nat) : PyStr :=
  if k = 0 then s else s.drop (s.length - k)

/-- Convenience: view a Lean string literal as a `PyStr`. -/
def pyOf (s : String) : PyStr := s.toList

/-- One iteration of the loop body of `_chunk_by_tokens` (ingest.py).
State is the pair (chunks accumulated so far, current chunk `cur`). -/
def chunkStep (maxChars overlapChars : Nat) (st : List PyStr × PyStr) (s : PyStr) :
    List PyStr × PyStr :=
  let chunks := st.1
  let cur := st.2
  if cur.length + s.length + 1 ≤ maxChars then
    (chunks, pyStrip (cur ++ ' ' :: s))
  else
    let chunks' := if cur = [] then chunks else chunks ++ [cur]
    let tail := if cur = [] then [] else pyTailSlice cur overlapChars
    let cur' := if tail = [] then s else pyStrip (tail ++ ' ' :: s)
    (chunks', cur')

/-- `_chunk_by_tokens` from ingest.py: chunk sentences by approximate character
count with a character-based overlap between consecutive chunks. -/
def chunkByTokens (sentences : List PyStr) (maxChars : Nat := 800)
    (overlapChars : Nat := 120) : List PyStr :=
  let st := sentences.foldl (chunkStep maxChars overlapChars) ([], [])
  if st.2 = [] then st.1 else st.1 ++ [st.2]

/-! ### The transcript chunker of yt.py

`_fetch_youtube_transcript_chunks` contains an inlined copy of the segment
chunker operating on (start, text) pairs; `push_chunk` records the pending
chunk with its anchor `cur_start` (defaulting to 0 when unset) and a stripped
copy of `cur_text`. -/

/-- `push_chunk` from yt.py: append the pending chunk, if any, to `chunks`. -/
def pushChunk (chunks : List (Nat × PyStr)) (curStart : Option Nat)
    (curText : PyStr) : List (Nat × PyStr) :=
  if curText = [] then chunks else chunks ++ [(curStart.getD 0, pyStrip curText)]

/-- One iteration of the chunking loop of `_fetch_youtube_transcript_chunks`.
State: (chunks, cur_start, cur_text). -/
def ytChunkStep (maxChars overlapChars : Nat)
    (st : List (Nat × PyStr) × Option Nat × PyStr) (u : Nat × PyStr) :
    List (Nat × PyStr) × Option Nat × PyStr :=
  let chunks := st.1
  let curStart := st.2.1
  let curText := st.2.2
  if curText = [] then
    (chunks, some u.1, u.2)
  else if curText.length + 1 + u.2.length ≤ maxChars then
    (chunks, curStart, curText ++ ' ' :: u.2)
  else
    (pushChunk chunks curStart curText, some u.1,
      pyStrip (pyTailSlice curText overlapChars ++ ' ' :: u.2))

/-- The chunking phase of `_fetch_youtube_transcript_chunks` (yt.py lines
155-179), taking the filtered (start, text) segment list `sents` to a list of
(start_seconds, content) chunks.  In the source `maxChars`/`overlapChars` are
the constants `MAX = 800` and `OVERLAP = 120`. -/
def ytChunkByTokens (sents : List (Nat × PyStr)) (maxChars : Nat := 800)
    (overlapChars : Nat := 120) : List (Nat × PyStr) :=
  let st := sents.foldl (ytChunkStep maxChars overlapChars) ([], none, [])
  pushChunk st.1 st.2.1 st.2.2

/-! ### Transcript acquisition order (yt.py lines 76-137)

Exceptions are embedded as `Except` errors.  The direct-fetch loop catches
only `TranscriptsDisabled`/`NoTranscriptFound`; any other exception escapes
to the outermost handler of `_fetch_youtube_transcript_chunks`, which
returns the empty list. -/

/-- A Python exception message. -/
abbrev PyErr := String

/-- Errors of the direct `YouTubeTranscriptApi.fetch` call: the loop in
yt.py catches `TranscriptsDisabled` and `NoTranscriptFound` (`caught`) and
lets every other exception propagate (`uncaught`). -/
inductive FetchErr where
  | caught (msg : PyErr)
  | uncaught (msg : PyErr)
deriving DecidableEq

/-- The transcript listing returned by `ytt_api.list(video_id)`, exposing the
two lookups the code performs on it (each composed with `.fetch()` and
`.to_raw_data()`, any exception inside collapsing to `Except.error`). -/
structure TranscriptListing (α : Type) where
  findGeneratedTranscriptEn : Except PyErr (List α)
  findTranscriptEn : Except PyErr (List α)

/-- The platform transcript service used by `_fetch_youtube_transcript_chunks`. -/
structure YtApi (α : Type) where
  list : String → Except PyErr (TranscriptListing α)
  fetch : String → List String → Except FetchErr (List α)

/-- The ordered language-code candidates of the direct-fetch fallback loop. -/
def directFetchLangs : List (List String) :=
  [["en"], ["en-US"], ["en-GB"], ["auto"]]

/-- The direct-fetch fallback loop (yt.py lines 113-133): try each language
candidate in order, continuing past caught errors, stopping at the first
successful fetch (even an empty one: the loop breaks before the emptiness
check), and propagating uncaught exceptions. -/
def directFetchLoop {α : Type} (api : YtApi α) (vid : String) :
    List (List String) → Except PyErr (List α)
  | [] => .ok []
  | langs :: rest =>
    match api.fetch vid langs with
    | .ok segs => .ok segs
    | .error (.caught _) => directFetchLoop api vid rest
    | .error (.uncaught e) => .error e

/-- The value of `segments` after the direct-fetch loop, as seen by the rest
of `_fetch_youtube_transcript_chunks`: an uncaught exception reaches the
outermost handler, which returns the empty list. -/
def directResult {α : Type} (api : YtApi α) (vid : String) : List α :=
  match directFetchLoop api vid directFetchLangs with
  | .ok segs => segs
  | .error _ => []

/-- Segment acquisition of `_fetch_youtube_transcript_chunks` (yt.py lines
76-137): first the listing-based lookups (auto-generated English, then any
English transcript), then, if no segments were obtained (`if not segments:`
treats both `None` and `[]` as falsy), the direct-fetch loop. -/
def acquireSegments {α : Type} (api : YtApi α) (vid : String) : List α :=
  let fromListing : List α :=
    match api.list vid with
    | .error _ => []
    | .ok listing =>
      match listing.findGeneratedTranscriptEn with
      | .ok segs => segs
      | .error _ =>
        match listing.findTranscriptEn with
        | .ok segs => segs
        | .error _ => []
  if fromListing.isEmpty then directResult api vid
  else fromListing

/-! ### The ingestion orchestrator (ingest.py lines 19-111) -/

/-- A LangChain `Document` as produced by the ingestion pipeline. -/
structure TranscriptDoc where
  pageContent : PyStr
  videoUrl : Option String := none
  title : String := ""
  startSeconds : Nat := 0
deriving DecidableEq

/-- The three external services invoked by `ingest_youtube_urls`, each
embedded as a fallible function. -/
structure IngestServices where
  getVideoMetadata : String → Except PyErr (String × Nat × String)
  fetchTranscriptChunks : String → String → String → Except PyErr (List TranscriptDoc)
  addDocuments : List TranscriptDoc → Except PyErr Unit

/-- One result dictionary of `ingest_youtube_urls`; absent keys are `none`. -/
structure IngestOutcome where
  url : String
  status : String
  error : Option PyErr := none
  errorType : Option String := none
  errorDetails : Option String := none
  chunks : Option Nat := none
deriving DecidableEq

/-- The per-URL pipeline of `ingest_youtube_urls` (the body of the loop over
`urls`): metadata fetch, transcript fetch, emptiness check, vector-store
submission, with each failure converted to a classified outcome record. -/
def processUrl (svc : IngestServices) (url : String) : IngestOutcome :=
  match svc.getVideoMetadata url with
  | .error e =>
    { url := url, status := "error", error := some e,
      errorType := some "metadata_fetch_failed",
      errorDetails := some "Failed to fetch video metadata. The video might be unavailable or restricted." }
  | .ok (vid, _duration, title) =>
    match svc.fetchTranscriptChunks vid url title with
    | .error e =>
      { url := url, status := "error", error := some e,
        errorType := some "transcript_fetch_failed",
        errorDetails := some "Failed to fetch video transcript. The video might be unavailable or have no captions." }
    | .ok transcriptChunks =>
      if transcriptChunks = [] then
        { url := url, status := "error",
          errorType := some "no_transcript",
          errorDetails := some "No transcript available for this video. It might be private, age-restricted, or have no captions." }
      else
        match svc.addDocuments transcriptChunks with
        | .error e =>
          { url := url, status := "error", error := some e,
            errorType := some "embedding_failed",
            errorDetails := some "Failed to create embeddings. Check your OpenAI API key format in .env file." }
        | .ok _ =>
          { url := url, status := "ok", chunks := some transcriptChunks.length }

/-- `ingest_youtube_urls` from ingest.py: process each URL in order,
accumulating one outcome record per URL. -/
def ingest_youtube_urls (svc : IngestServices) (urls : List String) :
    List IngestOutcome :=
  urls.foldl (fun results url => results ++ [processUrl svc url]) []

/-! ### Markdown timestamp assignment (ingest.py lines 182-201)

`words * 0.375` and `(i / max(1, n)) * duration` are computed by Python in
IEEE-754 binary64 arithmetic: every elementary operation (int/int true
division, int→float conversion, float multiplication) produces the exact
value correctly rounded to 53 significant bits with ties to even.
`roundDouble` models that rounding for the non-negative normal-range values
that occur here; `int(...)` on a non-negative value is the floor. -/

/-- Python `int(x)`: truncation toward zero. -/
def pyInt (x : ℚ) : Int :=
  if 0 ≤ x then ⌊x⌋ else ⌈x⌉

/-- Fuel-driven binary logarithm on naturals: with fuel at least `n`,
`log2fuel fuel n` is the floor of the base-2 logarithm of `n` (0 for
`n ≤ 1`). -/
def log2fuel : Nat → Nat → Nat
  | 0, _ => 0
  | fuel + 1, n => if 2 ≤ n then log2fuel fuel (n / 2) + 1 else 0

/-- Floor of the base-2 logarithm of a natural number (0 for `n ≤ 1`). -/
def nlog2 (n : Nat) : Nat := log2fuel n n

/-- Floor of the base-2 logarithm of a positive rational: for `x ≥ 1` this
is the floor log of `⌊x⌋`, and for `0 < x < 1` it is minus the ceiling log
of `⌈1 / x⌉`. -/
def qlog2 (x : ℚ) : Int :=
  if 1 ≤ x then (nlog2 ⌊x⌋₊ : Int)
  else if (⌈1 / x⌉ : Int).toNat ≤ 1 then 0
  else -((nlog2 ((⌈1 / x⌉ : Int).toNat - 1) + 1 : Nat) : Int)

/-- The rational value `2 ^ e` for an integer exponent `e`. -/
def qpow2 (e : Int) : ℚ :=
  if 0 ≤ e then ((2 ^ e.toNat : Nat) : ℚ) else 1 / ((2 ^ (-e).toNat : Nat) : ℚ)

/-- Round a non-negative rational to the nearest IEEE-754 binary64 value
(53 significant bits, round-to-nearest, ties-to-even), assuming the value is
in the normal finite range; CPython computes each float operation here as
this rounding of the exact result.  The significand is scaled into
`[2^52, 2^53)` using the exponent `qlog2 x` and rounded with ties to the
even candidate. -/
def roundDouble (x : ℚ) : ℚ :=
  if x ≤ 0 then 0
  else
    let e : Int := qlog2 x
    let m : ℚ := x * qpow2 (52 - e)
    let lo : Int := ⌊m⌋
    let fr : ℚ := m - (lo : ℚ)
    let r : Int :=
      if fr < 1 / 2 then lo
      else if 1 / 2 < fr then lo + 1
      else if lo % 2 = 0 then lo else lo + 1
    (r : ℚ) * qpow2 (e - 52)

/-- `duration = int(words * 0.375)` (ingest.py line 185), the reading-speed
duration estimate used when no external duration is known: `words` is
converted to a double and multiplied by the exactly representable literal
`0.375`, the product being rounded again. -/
def estimateDurationSeconds (words : Nat) : Nat :=
  (pyInt (roundDouble (roundDouble (words : ℚ) * (0.375 : ℚ)))).toNat

/-- `start = int((i / max(1, (n))) * duration)` (ingest.py line 191):
`i / max(1, n)` is the correctly rounded double of the exact quotient, and
the multiplication by the double conversion of `duration` rounds again. -/
def mdSyntheticStart (i n duration : Nat) : Int :=
  pyInt (roundDouble
    (roundDouble ((i : ℚ) / ((max 1 n : ℕ) : ℚ)) * roundDouble (duration : ℚ)))

/-- The `start_seconds` metadata value `max(0, start)` (ingest.py line 197). -/
def mdStartSeconds (i n duration : Nat) : Nat :=
  (max 0 (mdSyntheticStart i n duration)).toNat

/-- The document-assembly loop of `ingest_markdown_folder` (ingest.py lines
182-201): given the chunk list, an externally known duration (0 when
unknown) and the body's word count `len(body.split())`, produce the
(content, start_seconds) pairs that are indexed. -/
def mdAssignTimestamps (chunks : List PyStr) (durationIn words : Nat) :
    List (PyStr × Nat) :=
  let n := chunks.length
  let duration := if durationIn ≤ 0 then estimateDurationSeconds words else durationIn
  (List.range n).zip chunks |>.map fun p => (p.2, mdStartSeconds p.1 n duration)

/-! ### Header extraction (ingest.py `_extract_header_url`) -/

/-- Characters at which Python `str.splitlines` breaks a line. -/
def pyIsLineBreak (c : Char) : Bool :=
  c = '\n' || c = '\r' || c = '\x0b' || c = '\x0c' ||
  c = '\x1c' || c = '\x1d' || c = '\x1e' || c = '\x85' ||
  c = '\u2028' || c = '\u2029'

/-- Worker for `pySplitlines`; `acc` holds the current line reversed. -/
def pySplitlinesAux : PyStr → PyStr → List PyStr
  | [], acc => if acc = [] then [] else [acc.reverse]
  | '\r' :: '\n' :: rest, acc => acc.reverse :: pySplitlinesAux rest []
  | c :: rest, acc =>
    if pyIsLineBreak c then acc.reverse :: pySplitlinesAux rest []
    else pySplitlinesAux rest (c :: acc)

/-- Python `s.splitlines()`: split at line boundaries, treating `\r\n` as a
single boundary and dropping a trailing empty line. -/
def pySplitlines (s : PyStr) : List PyStr :=
  pySplitlinesAux s []

/-- Python `"\n".join(lines)`. -/
def joinNl (lines : List PyStr) : PyStr :=
  (lines.intersperse ['\n']).flatten

/-- Python `str.lower`, per character (ASCII-faithful). -/
def pyLower (s : PyStr) : PyStr := s.map Char.toLower

/-- The text after the first colon: `hl.split(":", 1)[1]`, defined whenever
`hl` contains a colon (guaranteed at the call site by `startswith`). -/
def afterFirstColon (hl : PyStr) : PyStr :=
  (hl.dropWhile (fun c => c ≠ ':')).drop 1

/-- The bare front-matter delimiter `---`. -/
def dashes : PyStr := ['-', '-', '-']

/-- The scan of the header block for a `youtube_url:` key (ingest.py lines
246-250): the first header line whose lowercase form starts with
`youtube_url:` yields the stripped text after the first colon. -/
def findYtUrl (headerLines : List PyStr) : Option PyStr :=
  match headerLines.find? (fun hl => (pyOf "youtube_url:").isPrefixOf (pyLower hl)) with
  | some hl => some (pyStrip (afterFirstColon hl))
  | none => none

/-- `for i in range(1, min(30, len(lines)))`: the first index in that range
whose line strips to `---`. -/
def findCloseIdx (lines : List PyStr) : Option Nat :=
  (List.range' 1 (min 30 lines.length - 1)).find?
    (fun i => pyStrip (lines.getD i []) = dashes)

/-- `_extract_header_url` from ingest.py: parse an optional leading
front-matter block delimited by bare `---` lines, returning the declared
`youtube_url` (if any) and the body; inputs without such a block are
returned unchanged with no URL. -/
def extract_header_url (raw : PyStr) : Option PyStr × PyStr :=
  let lines := pySplitlines raw
  if 3 ≤ lines.length ∧ pyStrip (lines.getD 0 []) = dashes then
    match findCloseIdx lines with
    | some i =>
      let header := joinNl ((lines.drop 1).take (i - 1))
      let body := joinNl (lines.drop (i + 1))
      (findYtUrl (pySplitlines header), body)
    | none => (none, raw)
  else (none, raw)

/-! ### The retrieval funnel (store.py `VectorStore.search`) and the
`/search` endpoint (main.py) -/

/-- `VectorStore.search` from store.py, with the vector index's
`similarity_search_with_score` and the reranker's `compress_documents`
embedded as fallible functions.  The reranker returns documents whose
metadata may carry a `relevance_score` (`none` when absent, read back with
default 0.0). -/
def vectorStoreSearch
    (simSearch : String → Nat → Except PyErr (List (TranscriptDoc × ℚ)))
    (rerank : String → List TranscriptDoc → Except PyErr (List (TranscriptDoc × Option ℚ)))
    (query : String) : Except PyErr (List (TranscriptDoc × ℚ)) :=
  match simSearch query 20 with
  | .error e => .error e
  | .ok results =>
    if results = [] then .ok []
    else
      let documents := results.map Prod.fst
      match rerank query documents with
      | .error e => .error e
      | .ok reranked => .ok (reranked.map fun p => (p.1, p.2.getD 0))

/-- The parameters of `VectorStore.search(self, query)` (store.py line 53). -/
def vectorStoreSearchParams : List String := ["self", "query"]

/-- The keyword arguments of the call `vs.search(q, k=k)` (main.py line 110). -/
def searchCallKwargs : List String := ["k"]

/-- CPython keyword-argument binding, reduced to the check relevant here: a
keyword argument naming no parameter of the callee raises `TypeError`. -/
def pyBindKwargs (params kwargs : List String) : Except PyErr Unit :=
  match kwargs.find? (fun kw => ¬ params.contains kw) with
  | some kw => .error ("TypeError: search() got an unexpected keyword argument " ++ kw)
  | none => .ok ()

/-- The snippet of a search response item (main.py line 126): the content
truncated to 400 characters, with a trailing ellipsis when truncated. -/
def toSnippet (content : PyStr) : PyStr :=
  content.take 400 ++ (if 400 < content.length then pyOf "..." else [])

/-- One item of the `/search` response (main.py lines 122-131). -/
structure SearchResponseItem where
  score : ℚ
  title : String
  snippet : PyStr
  startSeconds : Nat
deriving DecidableEq

/-- The `/search` endpoint handler (main.py lines 104-141): it calls
`vs.search(q, k=k)`, whose binding against `VectorStore.search(self, query)`
is checked first; a binding failure is the `TypeError` the endpoint's
`except` block re-raises. -/
def searchEndpoint
    (simSearch : String → Nat → Except PyErr (List (TranscriptDoc × ℚ)))
    (rerank : String → List TranscriptDoc → Except PyErr (List (TranscriptDoc × Option ℚ)))
    (q : String) (_k : Int) : Except PyErr (List SearchResponseItem) :=
  match pyBindKwargs vectorStoreSearchParams searchCallKwargs with
  | .error e => .error e
  | .ok _ =>
    match vectorStoreSearch simSearch rerank q with
    | .error e => .error e
    | .ok pairs =>
      .ok (pairs.map fun p =>
        { score := p.2, title := p.1.title, snippet := toSnippet p.1.pageContent,
          startSeconds := p.1.startSeconds })

/-! ## Auxiliary lemmas about the embedded Python string operations -/

/-- The string has no leading whitespace. -/
def NoLeadWs (s : PyStr) : Prop := ∀ c ∈ s.head?, pyIsSpace c = false

/-- The string has no trailing whitespace. -/
def NoTrailWs (s : PyStr) : Prop := ∀ c ∈ s.getLast?, pyIsSpace c = false

theorem dropWhile_eq_self_of_head {p : Char → Bool} {l : PyStr}
    (h : ∀ c ∈ l.head?, p c = false) : l.dropWhile p = l := by
  cases l with
  | nil => rfl
  | cons a t =>
    have ha : p a = false := h a rfl
    simp [List.dropWhile_cons, ha]

theorem rstrip_eq_self_of_getLast {p : Char → Bool} {l : PyStr}
    (h : ∀ c ∈ l.getLast?, p c = false) : (l.reverse.dropWhile p).reverse = l := by
  have hrev : l.reverse.dropWhile p = l.reverse := by
    apply dropWhile_eq_self_of_head
    intro c hc
    rw [List.head?_reverse] at hc
    exact h c hc
  rw [hrev, List.reverse_reverse]

theorem pyStrip_eq_self {s : PyStr} (h1 : NoLeadWs s) (h2 : NoTrailWs s) :
    pyStrip s = s := by
  unfold pyStrip
  rw [dropWhile_eq_self_of_head h1]
  exact rstrip_eq_self_of_getLast h2

theorem rstrip_length_le (p : Char → Bool) (l : PyStr) :
    ((l.reverse.dropWhile p).reverse).length ≤ l.length := by
  rw [List.length_reverse]
  calc (l.reverse.dropWhile p).length ≤ l.reverse.length := (List.dropWhile_suffix p).length_le
    _ = l.length := List.length_reverse l

theorem pyStrip_length_le (s : PyStr) : (pyStrip s).length ≤ s.length := by
  unfold pyStrip
  calc ((s.dropWhile pyIsSpace).reverse.dropWhile pyIsSpace).reverse.length
      ≤ (s.dropWhile pyIsSpace).length := rstrip_length_le _ _
    _ ≤ s.length := (List.dropWhile_suffix _).length_le

theorem head?_append_left {α : Type} {l l' : List α} (h : l ≠ []) : (l ++ l').head? = l.head? := by
  cases l with
  | nil => exact absurd rfl h
  | cons a t => simp

theorem getLast?_append_right {α : Type} {l l' : List α} (h : l' ≠ []) :
    (l ++ l').getLast? = l'.getLast? := by
  rw [List.getLast?_append]
  cases hl : l'.getLast? with
  | none => exact absurd (List.getLast?_eq_none_iff.mp hl) h
  | some c => rfl

theorem getLast?_of_suffix {α : Type} {s l : List α} (h : s <:+ l) (hne : s ≠ []) :
    s.getLast? = l.getLast? := by
  obtain ⟨pre, rfl⟩ := h
  exact (getLast?_append_right hne).symm

theorem dropWhile_head_not (p : Char → Bool) (l : PyStr) :
    ∀ c ∈ (l.dropWhile p).head?, p c = false := by
  induction l with
  | nil => intro c hc; simp at hc
  | cons a t ih =>
    intro c hc
    rw [List.dropWhile_cons] at hc
    by_cases ha : p a = true
    · rw [if_pos ha] at hc
      exact ih c hc
    · rw [if_neg ha] at hc
      cases hc
      exact Bool.eq_false_iff.mpr ha

theorem dropWhile_ne_nil_of_getLast {p : Char → Bool} {l : PyStr} {c : Char}
    (h : l.getLast? = some c) (hc : p c = false) : l.dropWhile p ≠ [] := by
  intro hnil
  rw [List.dropWhile_eq_nil_iff] at hnil
  have := hnil c (List.mem_of_mem_getLast? h)
  rw [hc] at this
  exact Bool.false_ne_true this

theorem noLeadWs_of_stripped {s : PyStr} (h : pyStrip s = s) : NoLeadWs s := by
  intro c hc
  by_contra hws
  have hws' : pyIsSpace c = true := eq_true_of_ne_false hws
  obtain ⟨t, rfl⟩ : ∃ t, s = c :: t := by
    cases s with
    | nil => simp at hc
    | cons a t => cases hc; exact ⟨t, rfl⟩
  have hlt : (pyStrip (c :: t)).length < (c :: t).length := by
    unfold pyStrip
    calc ((( c :: t).dropWhile pyIsSpace).reverse.dropWhile pyIsSpace).reverse.length
        ≤ ((c :: t).dropWhile pyIsSpace).length := rstrip_length_le _ _
      _ = (t.dropWhile pyIsSpace).length := by rw [List.dropWhile_cons, if_pos hws']
      _ ≤ t.length := (List.dropWhile_suffix _).length_le
      _ < (c :: t).length := by simp
  rw [h] at hlt
  exact lt_irrefl _ hlt

theorem noTrailWs_of_stripped {s : PyStr} (h : pyStrip s = s) : NoTrailWs s := by
  intro c hc
  by_contra hws
  have hws' : pyIsSpace c = true := eq_true_of_ne_false hws
  have hsne : s ≠ [] := by
    intro hnil; rw [hnil] at hc; simp at hc
  set ls := s.dropWhile pyIsSpace with hls
  by_cases hlsnil : ls = []
  · have : pyStrip s = [] := by
      unfold pyStrip
      rw [← hls, hlsnil]
      rfl
    rw [h] at this
    exact hsne this
  · have hlast : ls.getLast? = s.getLast? :=
      getLast?_of_suffix (List.dropWhile_suffix pyIsSpace) hlsnil
    obtain ⟨t, hrev⟩ : ∃ t, ls.reverse = c :: t := by
      have : ls.reverse.head? = some c := by
        rw [List.head?_reverse, hlast, hc]
      cases hr : ls.reverse with
      | nil => rw [hr] at this; simp at this
      | cons a t =>
        rw [hr] at this
        cases this
        exact ⟨t, rfl⟩
    have hlt : (pyStrip s).length < s.length := by
      unfold pyStrip
      rw [← hls, hrev]
      calc ((c :: t).dropWhile pyIsSpace).reverse.length
          = ((c :: t).dropWhile pyIsSpace).length := List.length_reverse _
        _ = (t.dropWhile pyIsSpace).length := by rw [List.dropWhile_cons, if_pos hws']
        _ ≤ t.length := (List.dropWhile_suffix _).length_le
        _ < (c :: t).length := by simp
        _ = ls.reverse.length := by rw [hrev]
        _ = ls.length := List.length_reverse _
        _ ≤ s.length := (List.dropWhile_suffix _).length_le
    rw [h] at hlt
    exact lt_irrefl _ hlt

/-! ### Tail-slice lemmas -/

theorem pyTailSlice_suffix (l : PyStr) (k : Nat) : pyTailSlice l k <:+ l := by
  unfold pyTailSlice
  by_cases hk : k = 0
  · rw [if_pos hk]
  · rw [if_neg hk]
    exact List.drop_suffix _ _

theorem pyTailSlice_ne_nil {l : PyStr} (h : l ≠ []) (k : Nat) :
    pyTailSlice l k ≠ [] := by
  unfold pyTailSlice
  by_cases hk : k = 0
  · rw [if_pos hk]; exact h
  · rw [if_neg hk]
    intro hnil
    have h1 := List.length_drop (l.length - k) l
    rw [hnil] at h1
    simp at h1
    have hl : 0 < l.length := List.length_pos.mpr h
    omega

theorem pyTailSlice_length_le {k : Nat} (hk : 1 ≤ k) (l : PyStr) :
    (pyTailSlice l k).length ≤ k := by
  unfold pyTailSlice
  rw [if_neg (by omega : ¬ k = 0)]
  rw [List.length_drop]
  omega

theorem getLast?_pyTailSlice {l : PyStr} (h : l ≠ []) (k : Nat) :
    (pyTailSlice l k).getLast? = l.getLast? :=
  getLast?_of_suffix (pyTailSlice_suffix l k) (pyTailSlice_ne_nil h k)

/-! ### The space-join and its algebra -/

/-- Python `" ".join(l)`: the unit texts of one chunk joined by single
spaces.  This is the shape in which the chunkers assemble `cur`. -/
def SJ (l : List PyStr) : PyStr := (l.intersperse [' ']).flatten

theorem SJ_nil : SJ [] = [] := rfl

theorem SJ_single (a : PyStr) : SJ [a] = a := by
  simp [SJ]

theorem SJ_cons_cons (a b : PyStr) (t : List PyStr) :
    SJ (a :: b :: t) = a ++ ' ' :: SJ (b :: t) := by
  unfold SJ
  rw [List.intersperse_cons_cons, List.flatten_cons, List.flatten_cons]
  rfl

theorem SJ_append_single {g : List PyStr} (h : g ≠ []) (s : PyStr) :
    SJ (g ++ [s]) = SJ g ++ ' ' :: s := by
  induction g with
  | nil => exact absurd rfl h
  | cons a t ih =>
    cases t with
    | nil =>
      show SJ [a, s] = SJ [a] ++ ' ' :: s
      rw [SJ_cons_cons, SJ_single, SJ_single]
    | cons b t' =>
      have hne : b :: t' ≠ [] := List.cons_ne_nil _ _
      calc SJ ((a :: b :: t') ++ [s]) = SJ (a :: ((b :: t') ++ [s])) := rfl
        _ = a ++ ' ' :: SJ ((b :: t') ++ [s]) := by
            rw [List.cons_append, SJ_cons_cons]
        _ = a ++ ' ' :: (SJ (b :: t') ++ ' ' :: s) := by rw [ih hne]
        _ = (a ++ ' ' :: SJ (b :: t')) ++ ' ' :: s := by simp
        _ = SJ (a :: b :: t') ++ ' ' :: s := by rw [SJ_cons_cons]

theorem SJ_good {g : List PyStr} (hne : g ≠ [])
    (h : ∀ x ∈ g, x ≠ [] ∧ pyStrip x = x) :
    SJ g ≠ [] ∧ NoLeadWs (SJ g) ∧ NoTrailWs (SJ g) := by
  induction g with
  | nil => exact absurd rfl hne
  | cons a t ih =>
    have ha := h a (List.mem_cons_self a t)
    cases t with
    | nil =>
      rw [SJ_single]
      exact ⟨ha.1, noLeadWs_of_stripped ha.2, noTrailWs_of_stripped ha.2⟩
    | cons b t' =>
      have ht : ∀ x ∈ b :: t', x ≠ [] ∧ pyStrip x = x := by
        intro x hx; exact h x (List.mem_cons_of_mem a hx)
      obtain ⟨hne', hlead', htrail'⟩ := ih (List.cons_ne_nil _ _) ht
      rw [SJ_cons_cons]
      refine ⟨by simp [ha.1], ?_, ?_⟩
      · intro c hc
        rw [head?_append_left ha.1] at hc
        exact noLeadWs_of_stripped ha.2 c hc
      · intro c hc
        rw [List.append_cons, getLast?_append_right hne'] at hc
        exact htrail' c hc

/-! ### Strip-append lemmas describing the chunkers' string assembly -/

theorem pyStrip_space_cons {s : PyStr} (h1 : NoLeadWs s) (h2 : NoTrailWs s) :
    pyStrip (' ' :: s) = s := by
  unfold pyStrip
  have hsp : pyIsSpace ' ' = true := rfl
  rw [List.dropWhile_cons, if_pos hsp, dropWhile_eq_self_of_head h1]
  exact rstrip_eq_self_of_getLast h2

theorem pyStrip_append_space_cons {a s : PyStr}
    (ha : a.dropWhile pyIsSpace ≠ []) (hs : s ≠ []) (hst : NoTrailWs s) :
    pyStrip (a ++ ' ' :: s) = a.dropWhile pyIsSpace ++ ' ' :: s := by
  unfold pyStrip
  rw [List.dropWhile_append, if_neg (by simpa [List.isEmpty_iff] using ha)]
  apply rstrip_eq_self_of_getLast
  intro c hc
  rw [List.append_cons, getLast?_append_right hs] at hc
  exact hst c hc

theorem pyStrip_append_of_stripped {a s : PyStr} (hane : a ≠ [])
    (ha : pyStrip a = a) (hs : s ≠ []) (hst : NoTrailWs s) :
    pyStrip (a ++ ' ' :: s) = a ++ ' ' :: s := by
  have hdw : a.dropWhile pyIsSpace = a :=
    dropWhile_eq_self_of_head (noLeadWs_of_stripped ha)
  rw [pyStrip_append_space_cons (by rw [hdw]; exact hane) hs hst, hdw]

/-! ### The decomposition invariant of the segment chunker

Every chunk of a run is the space-join of a contiguous group of input
sentences, preceded (from the second chunk on) by an overlap prefix drawn
from the tail slice of the previous chunk.  `qs` records one (overlap
prefix, sentence group) pair per chunk. -/

/-- All unit texts are non-empty and whitespace-trimmed, which is how both
call sites produce them. -/
abbrev TrimmedUnits (l : List PyStr) : Prop := ∀ s ∈ l, s ≠ [] ∧ pyStrip s = s

/-- The chunk content described by a (prefix, group) pair. -/
def render (p : PyStr × List PyStr) : PyStr :=
  if p.1 = [] then SJ p.2 else p.1 ++ ' ' :: SJ p.2

/-- The overlap prefix is absent or starts with a non-whitespace character. -/
def PfxOk (p : PyStr × List PyStr) : Prop :=
  p.1 = [] ∨ ∃ c t, p.1 = c :: t ∧ pyIsSpace c = false

/-- The overlap prefix of the later chunk is a non-empty suffix of the tail
slice of the earlier chunk's content. -/
def OvStep (ov : Nat) (p q : PyStr × List PyStr) : Prop :=
  q.1 ≠ [] ∧ q.1 <:+ pyTailSlice (render p) ov

/-- Invariant of a chunker run over the consumed sentence list `done`. -/
def RunState (ov : Nat) (done : List PyStr) (qs : List (PyStr × List PyStr)) : Prop :=
  (qs.map Prod.snd).flatten = done ∧
  (∀ p ∈ qs, p.2 ≠ [] ∧ TrimmedUnits p.2 ∧ PfxOk p) ∧
  (∀ p ∈ qs.head?, p.1 = []) ∧
  List.Chain' (OvStep ov) qs

theorem render_good {p : PyStr × List PyStr} (hg : p.2 ≠ [])
    (ht : TrimmedUnits p.2) (hp : PfxOk p) :
    render p ≠ [] ∧ NoLeadWs (render p) ∧ NoTrailWs (render p) := by
  obtain ⟨hSJne, hSJlead, hSJtrail⟩ := SJ_good hg ht
  unfold render
  rcases hp with hnil | ⟨c, t, hct, hc⟩
  · rw [if_pos hnil]
    exact ⟨hSJne, hSJlead, hSJtrail⟩
  · rw [if_neg (by rw [hct]; exact List.cons_ne_nil _ _)]
    refine ⟨by simp, ?_, ?_⟩
    · intro d hd
      rw [hct, head?_append_left (List.cons_ne_nil _ _)] at hd
      cases hd
      exact hc
    · intro d hd
      rw [List.append_cons, getLast?_append_right hSJne] at hd
      exact hSJtrail d hd

theorem render_nil_pfx (g : List PyStr) : render ([], g) = SJ g := rfl

theorem render_pos_pfx {t : PyStr} (ht : t ≠ []) (g : List PyStr) :
    render (t, g) = t ++ ' ' :: SJ g := by
  unfold render
  dsimp only
  rw [if_neg ht]

theorem chunkStep_run (C ov : Nat) {done : List PyStr}
    {qs : List (PyStr × List PyStr)} {q : PyStr × List PyStr} {s : PyStr}
    (hrs : RunState ov done (qs ++ [q])) (hsne : s ≠ []) (hss : pyStrip s = s) :
    ∃ qs' q', RunState ov (done ++ [s]) (qs' ++ [q']) ∧
      chunkStep C ov (qs.map render, render q) s = (qs'.map render, render q') := by
  obtain ⟨hflat, hmem, hhead, hchain⟩ := hrs
  obtain ⟨hqg, hqt, hqp⟩ := hmem q (by simp)
  obtain ⟨hcurne, hcurlead, hcurtrail⟩ := render_good hqg hqt hqp
  have hcurstr : pyStrip (render q) = render q := pyStrip_eq_self hcurlead hcurtrail
  by_cases hfit : (render q).length + s.length + 1 ≤ C
  · -- the sentence is appended to the current chunk
    refine ⟨qs, (q.1, q.2 ++ [s]), ⟨?_, ?_, ?_, ?_⟩, ?_⟩
    · have hflat' : (qs.map Prod.snd).flatten ++ q.2 = done := by
        simpa [List.map_append, List.flatten_append] using hflat
      simp [List.map_append, List.flatten_append, ← List.append_assoc, hflat']
    · intro p hp
      rcases List.mem_append.mp hp with hp | hp
      · exact hmem p (List.mem_append_left _ hp)
      · rw [List.mem_singleton] at hp
        subst hp
        refine ⟨by simp, ?_, hqp⟩
        intro x hx
        rcases List.mem_append.mp hx with hx | hx
        · exact hqt x hx
        · rw [List.mem_singleton] at hx
          subst hx
          exact ⟨hsne, hss⟩
    · intro p hp
      cases qs with
      | nil =>
        cases hp
        exact hhead q rfl
      | cons x xs =>
        exact hhead p hp
    · rw [List.chain'_append] at hchain ⊢
      refine ⟨hchain.1, List.chain'_singleton _, ?_⟩
      intro x hx y hy
      cases hy
      exact hchain.2.2 x hx q rfl
    · simp only [chunkStep]
      rw [if_pos hfit]
      have hrw : pyStrip (render q ++ ' ' :: s) = render q ++ ' ' :: s :=
        pyStrip_append_of_stripped hcurne hcurstr hsne (noTrailWs_of_stripped hss)
      rw [hrw]
      have hrender : render (q.1, q.2 ++ [s]) = render q ++ ' ' :: s := by
        unfold render
        by_cases hq1 : q.1 = []
        · rw [if_pos hq1, if_pos hq1, SJ_append_single hqg]
        · rw [if_neg hq1, if_neg hq1, SJ_append_single hqg]
          simp
      rw [hrender]
  · -- the current chunk is closed; a new chunk opens with the overlap tail
    have htailne : pyTailSlice (render q) ov ≠ [] := pyTailSlice_ne_nil hcurne ov
    obtain ⟨c, hc⟩ : ∃ c, (render q).getLast? = some c := by
      cases hgl : (render q).getLast? with
      | none => exact absurd (List.getLast?_eq_none_iff.mp hgl) hcurne
      | some c => exact ⟨c, rfl⟩
    have htlast : (pyTailSlice (render q) ov).getLast? = some c := by
      rw [getLast?_pyTailSlice hcurne ov, hc]
    have htdne : (pyTailSlice (render q) ov).dropWhile pyIsSpace ≠ [] :=
      dropWhile_ne_nil_of_getLast htlast (hcurtrail c hc)
    refine ⟨qs ++ [q], ((pyTailSlice (render q) ov).dropWhile pyIsSpace, [s]),
      ⟨?_, ?_, ?_, ?_⟩, ?_⟩
    · have hflat' : (qs.map Prod.snd).flatten ++ q.2 = done := by
        simpa [List.map_append, List.flatten_append] using hflat
      simp [List.map_append, List.flatten_append, ← List.append_assoc, hflat']
    · intro p hp
      rcases List.mem_append.mp hp with hp | hp
      · exact hmem p hp
      · rw [List.mem_singleton] at hp
        subst hp
        refine ⟨List.cons_ne_nil _ _, ?_, ?_⟩
        · intro x hx
          rw [List.mem_singleton] at hx
          subst hx
          exact ⟨hsne, hss⟩
        · cases htd : (pyTailSlice (render q) ov).dropWhile pyIsSpace with
          | nil => exact absurd htd htdne
          | cons c' t'' =>
            refine Or.inr ⟨c', t'', rfl, ?_⟩
            apply dropWhile_head_not pyIsSpace (pyTailSlice (render q) ov)
            rw [htd]
            rfl
    · intro p hp
      cases qs with
      | nil =>
        cases hp
        exact hhead q rfl
      | cons x xs =>
        exact hhead p hp
    · rw [List.chain'_append]
      refine ⟨hchain, List.chain'_singleton _, ?_⟩
      intro x hx y hy
      cases hy
      rw [List.getLast?_concat] at hx
      cases hx
      exact ⟨htdne, List.dropWhile_suffix pyIsSpace⟩
    · simp only [chunkStep]
      rw [if_neg hfit, if_neg hcurne, if_neg hcurne, if_neg htailne]
      have hrw : pyStrip (pyTailSlice (render q) ov ++ ' ' :: s) =
          (pyTailSlice (render q) ov).dropWhile pyIsSpace ++ ' ' :: s :=
        pyStrip_append_space_cons htdne hsne (noTrailWs_of_stripped hss)
      rw [hrw]
      have hrender : render ((pyTailSlice (render q) ov).dropWhile pyIsSpace, [s]) =
          (pyTailSlice (render q) ov).dropWhile pyIsSpace ++ ' ' :: s := by
        rw [render_pos_pfx htdne, SJ_single]
      rw [hrender, List.map_append]
      rfl

theorem chunkFold_run (C ov : Nat) :
    ∀ (rest : List PyStr), TrimmedUnits rest →
    ∀ (done : List PyStr) (qs : List (PyStr × List PyStr)) (q : PyStr × List PyStr),
      RunState ov done (qs ++ [q]) →
      ∃ qs' q', RunState ov (done ++ rest) (qs' ++ [q']) ∧
        List.foldl (chunkStep C ov) (qs.map render, render q) rest
          = (qs'.map render, render q') := by
  intro rest
  induction rest with
  | nil =>
    intro _ done qs q hrs
    exact ⟨qs, q, by simpa using hrs, rfl⟩
  | cons s rest' ih =>
    intro htrim done qs q hrs
    obtain ⟨hs1, hs2⟩ := htrim s (List.mem_cons_self s rest')
    obtain ⟨qs1, q1, hrs1, hstep⟩ := chunkStep_run C ov hrs hs1 hs2
    have htrim' : TrimmedUnits rest' := fun x hx => htrim x (List.mem_cons_of_mem s hx)
    obtain ⟨qs', q', hrs', hfold⟩ := ih htrim' (done ++ [s]) qs1 q1 hrs1
    refine ⟨qs', q', ?_, ?_⟩
    · have hre : done ++ s :: rest' = (done ++ [s]) ++ rest' := by simp
      rw [hre]
      exact hrs'
    · rw [List.foldl_cons, hstep, hfold]

theorem chunkByTokens_run (C ov : Nat) (sentences : List PyStr)
    (h : TrimmedUnits sentences) :
    (sentences = [] ∧ chunkByTokens sentences C ov = []) ∨
    (∃ qs q, RunState ov sentences (qs ++ [q]) ∧
      chunkByTokens sentences C ov = (qs ++ [q]).map render) := by
  cases sentences with
  | nil => exact Or.inl ⟨rfl, rfl⟩
  | cons s rest =>
    right
    obtain ⟨hs1, hs2⟩ := h s (List.mem_cons_self s rest)
    have hfirst : chunkStep C ov ([], []) s = ([], s) := by
      by_cases hfit : ([] : PyStr).length + s.length + 1 ≤ C
      · simp only [chunkStep]
        rw [if_pos hfit]
        show (([] : List PyStr), pyStrip (' ' :: s)) = ([], s)
        rw [pyStrip_space_cons (noLeadWs_of_stripped hs2) (noTrailWs_of_stripped hs2)]
      · simp only [chunkStep]
        rw [if_neg hfit]
        rfl
    have hrs0 : RunState ov [s] (([] : List (PyStr × List PyStr)) ++ [([], [s])]) := by
      refine ⟨by simp, ?_, ?_, List.chain'_singleton _⟩
      · intro p hp
        rw [List.nil_append, List.mem_singleton] at hp
        subst hp
        refine ⟨List.cons_ne_nil _ _, ?_, Or.inl rfl⟩
        intro x hx
        rw [List.mem_singleton] at hx
        subst hx
        exact ⟨hs1, hs2⟩
      · intro p hp
        cases hp
        rfl
    obtain ⟨qs', q', hrs', hfold⟩ :=
      chunkFold_run C ov rest (fun x hx => h x (List.mem_cons_of_mem s hx)) [s]
        [] ([], [s]) hrs0
    have hr0 : render ([], [s]) = s := by rw [render_nil_pfx, SJ_single]
    simp only [List.map_nil, hr0] at hfold
    refine ⟨qs', q', hrs', ?_⟩
    have hq'good := hrs'.2.1 q' (by simp)
    have hq'ne : render q' ≠ [] :=
      (render_good hq'good.1 hq'good.2.1 hq'good.2.2).1
    unfold chunkByTokens
    dsimp only
    rw [List.foldl_cons, hfirst, hfold]
    dsimp only
    rw [if_neg hq'ne, List.map_append]
    rfl

/-! ### Length bound for the segment chunker -/

theorem chunk_length_invariant (C ov U : Nat) (hov : 1 ≤ ov) :
    ∀ (rest : List PyStr), (∀ s ∈ rest, s.length ≤ U) →
    ∀ (chunks : List PyStr) (cur : PyStr),
      (∀ c ∈ chunks, c.length ≤ max C (ov + 1 + U)) →
      cur.length ≤ max C (ov + 1 + U) →
      (∀ c ∈ (List.foldl (chunkStep C ov) (chunks, cur) rest).1,
        c.length ≤ max C (ov + 1 + U)) ∧
      (List.foldl (chunkStep C ov) (chunks, cur) rest).2.length ≤ max C (ov + 1 + U) := by
  intro rest
  induction rest with
  | nil =>
    intro _ chunks cur h1 h2
    exact ⟨h1, h2⟩
  | cons s rest' ih =>
    intro hU chunks cur h1 h2
    rw [List.foldl_cons]
    have hsU : s.length ≤ U := hU s (List.mem_cons_self s rest')
    have hU' : ∀ x ∈ rest', x.length ≤ U := fun x hx => hU x (List.mem_cons_of_mem s hx)
    by_cases hfit : cur.length + s.length + 1 ≤ C
    · have hstep : chunkStep C ov (chunks, cur) s = (chunks, pyStrip (cur ++ ' ' :: s)) := by
        simp only [chunkStep]
        rw [if_pos hfit]
      rw [hstep]
      apply ih hU' chunks _ h1
      have h3 := pyStrip_length_le (cur ++ ' ' :: s)
      rw [List.length_append, List.length_cons] at h3
      have h4 := le_max_left C (ov + 1 + U)
      omega
    · by_cases hcur : cur = []
      · have hstep : chunkStep C ov (chunks, cur) s = (chunks, s) := by
          subst hcur
          simp only [chunkStep]
          rw [if_neg hfit]
          rfl
        rw [hstep]
        apply ih hU' chunks _ h1
        have h4 := le_max_right C (ov + 1 + U)
        omega
      · have htailne := pyTailSlice_ne_nil hcur ov
        have hstep : chunkStep C ov (chunks, cur) s =
            (chunks ++ [cur], pyStrip (pyTailSlice cur ov ++ ' ' :: s)) := by
          simp only [chunkStep]
          rw [if_neg hfit, if_neg hcur, if_neg hcur, if_neg htailne]
        rw [hstep]
        apply ih hU'
        · intro c hc
          rcases List.mem_append.mp hc with hc | hc
          · exact h1 c hc
          · rw [List.mem_singleton] at hc
            subst hc
            exact h2
        · have h3 := pyStrip_length_le (pyTailSlice cur ov ++ ' ' :: s)
          rw [List.length_append, List.length_cons] at h3
          have h4 := pyTailSlice_length_le hov cur
          have h5 := le_max_right C (ov + 1 + U)
          omega

/-! ## Claim C1: chunk length bound -/

/-- C1, counterexample.  The claim states that every chunk produced with
`max_chars = C` has length at most `C` unless it consists of a single source
unit whose own text exceeds `C`.  With `max_chars = 10`, `overlap_chars = 5`
and the two 8-character units "abcdefgh" and "ijklmnop" (neither exceeding
10), the second chunk is "defgh ijklmnop" of length 14 > 10: the overlap
tail plus the joining space push a chunk past the bound even though no
single unit does. -/
theorem chunk_bound_claim_counterexample :
    ¬ (∀ c ∈ chunkByTokens [pyOf "abcdefgh", pyOf "ijklmnop"] 10 5,
        c.length ≤ 10 ∨ (c ∈ [pyOf "abcdefgh", pyOf "ijklmnop"] ∧ 10 < c.length)) := by
  decide

/-- C1 (amended): for `overlap_chars ≥ 1`, every chunk produced by
`_chunk_by_tokens` with `max_chars = C` and units of length at most `U` has
content length at most `max C (overlap_chars + 1 + U)`; in particular, when
no unit exceeds `C` the correct bound is `C + overlap_chars + 1`, not `C`. -/
theorem chunk_bound_amended_holds (sentences : List PyStr) (C ov U : Nat)
    (hov : 1 ≤ ov) (hU : ∀ s ∈ sentences, s.length ≤ U) :
    ∀ c ∈ chunkByTokens sentences C ov, c.length ≤ max C (ov + 1 + U) := by
  intro c hc
  unfold chunkByTokens at hc
  dsimp only at hc
  obtain ⟨h1, h2⟩ :=
    chunk_length_invariant C ov U hov sentences hU [] [] (by simp) (by simp)
  by_cases hnil : (List.foldl (chunkStep C ov) ([], []) sentences).2 = []
  · rw [if_pos hnil] at hc
    exact h1 c hc
  · rw [if_neg hnil] at hc
    rcases List.mem_append.mp hc with hc | hc
    · exact h1 c hc
    · rw [List.mem_singleton] at hc
      subst hc
      exact h2

/-- C1, witness for the amended theorem at the counterexample's input: the
oversized second chunk respects the corrected bound. -/
theorem chunk_bound_amended_holds_witness :
    (pyOf "defgh ijklmnop").length ≤ max 10 (5 + 1 + 8) :=
  chunk_bound_amended_holds [pyOf "abcdefgh", pyOf "ijklmnop"] 10 5 8
    (by decide) (by decide) (pyOf "defgh ijklmnop") (by decide)

/-! ### More space-join algebra, and pointwise forms of `render` -/

theorem render_eq_nil_pfx {p : PyStr × List PyStr} (h : p.1 = []) :
    render p = SJ p.2 := by
  unfold render
  rw [if_pos h]

theorem render_eq_pos_pfx {p : PyStr × List PyStr} (h : p.1 ≠ []) :
    render p = p.1 ++ ' ' :: SJ p.2 := by
  unfold render
  rw [if_neg h]

theorem SJ_append {l₁ l₂ : List PyStr} (h₁ : l₁ ≠ []) (h₂ : l₂ ≠ []) :
    SJ (l₁ ++ l₂) = SJ l₁ ++ ' ' :: SJ l₂ := by
  induction l₁ with
  | nil => exact absurd rfl h₁
  | cons a t ih =>
    cases t with
    | nil =>
      cases l₂ with
      | nil => exact absurd rfl h₂
      | cons b t₂ =>
        show SJ (a :: b :: t₂) = SJ [a] ++ ' ' :: SJ (b :: t₂)
        rw [SJ_cons_cons, SJ_single]
    | cons b t' =>
      calc SJ ((a :: b :: t') ++ l₂) = a ++ ' ' :: SJ ((b :: t') ++ l₂) :=
            SJ_cons_cons a b (t' ++ l₂)
        _ = a ++ ' ' :: (SJ (b :: t') ++ ' ' :: SJ l₂) := by
            rw [ih (List.cons_ne_nil _ _)]
        _ = (a ++ ' ' :: SJ (b :: t')) ++ ' ' :: SJ l₂ := by simp
        _ = SJ (a :: b :: t') ++ ' ' :: SJ l₂ := by rw [SJ_cons_cons]

theorem SJ_flatten {groups : List (List PyStr)} (h : ∀ g ∈ groups, g ≠ []) :
    SJ (groups.map SJ) = SJ groups.flatten := by
  induction groups with
  | nil => rfl
  | cons g gs ih =>
    have hg : g ≠ [] := h g (List.mem_cons_self _ _)
    cases gs with
    | nil =>
      show SJ [SJ g] = SJ ([g].flatten)
      rw [SJ_single, show ([g] : List (List PyStr)).flatten = g by simp]
    | cons g' gs' =>
      have h' : ∀ x ∈ g' :: gs', x ≠ [] := fun x hx => h x (List.mem_cons_of_mem _ hx)
      have hflatne : (g' :: gs').flatten ≠ [] := by
        rw [List.flatten_cons]
        intro hnil
        exact h' g' (List.mem_cons_self _ _) (List.append_eq_nil.mp hnil).1
      calc SJ ((g :: g' :: gs').map SJ)
          = SJ g ++ ' ' :: SJ ((g' :: gs').map SJ) := SJ_cons_cons _ _ _
        _ = SJ g ++ ' ' :: SJ ((g' :: gs').flatten) := by rw [ih h']
        _ = SJ (g ++ (g' :: gs').flatten) := (SJ_append hg hflatne).symm
        _ = SJ ((g :: g' :: gs').flatten) := by simp [List.flatten_cons]

/-! ## Claim C4: the overlap prefix is a bounded suffix of the previous chunk -/

/-- C4, counterexample.  With `overlap_chars = 0`, the Python slice
`cur[-0:]` is the whole string, so `_chunk_by_tokens(["abcde", "fghij"], 10, 0)`
produces the second chunk "abcde fghij": removing the triggering unit's text
"fghij" and the joining space leaves "abcde", a suffix of the previous chunk
of length 5, which violates the claimed bound `≤ overlap_chars = 0`. -/
theorem overlap_suffix_counterexample :
    chunkByTokens [pyOf "abcde", pyOf "fghij"] 10 0 =
      [pyOf "abcde", pyOf "abcde fghij"] ∧
    pyOf "abcde fghij" = pyOf "abcde" ++ ' ' :: pyOf "fghij" ∧
    ¬ (pyOf "abcde").length ≤ 0 := by
  decide

/-- C4 (amended): for runs with `overlap_chars ≥ 1` over non-empty
whitespace-trimmed unit texts, every chunk after the first is
`t ++ " " ++ rest` where `t` is a non-empty character-suffix of the
immediately preceding chunk's content of length at most `overlap_chars`
(with `overlap_chars = 0` the code instead prepends the entire previous
chunk, as the counterexample shows). -/
theorem overlap_suffix_amended (sentences : List PyStr) (C ov : Nat)
    (hov : 1 ≤ ov) (htrim : TrimmedUnits sentences) :
    ∀ i, i + 1 < (chunkByTokens sentences C ov).length →
    ∃ t rest,
      (chunkByTokens sentences C ov).getD (i + 1) [] = t ++ ' ' :: rest ∧
      t ≠ [] ∧
      t <:+ (chunkByTokens sentences C ov).getD i [] ∧
      t.length ≤ ov := by
  intro i hi
  rcases chunkByTokens_run C ov sentences htrim with ⟨hnil, hout⟩ | ⟨qs, q, hrs, hout⟩
  · rw [hout] at hi
    simp at hi
  · set L := qs ++ [q] with hLdef
    rw [hout] at hi ⊢
    have hlen : (L.map render).length = L.length := List.length_map _ _
    have hi1 : i + 1 < L.length := by rw [hlen] at hi; exact hi
    have hi0 : i < L.length := by omega
    obtain ⟨htne, hsuf⟩ := List.chain'_iff_get.mp hrs.2.2.2 i (by omega)
    refine ⟨(L.get ⟨i + 1, hi1⟩).1, SJ (L.get ⟨i + 1, hi1⟩).2, ?_, htne, ?_, ?_⟩
    · rw [List.getD_eq_getElem _ _ hi, List.getElem_map]
      exact render_eq_pos_pfx htne
    · have hsuf' : (L.get ⟨i + 1, hi1⟩).1 <:+ render (L.get ⟨i, hi0⟩) :=
        hsuf.trans (pyTailSlice_suffix _ _)
      rw [List.getD_eq_getElem _ _ (by rw [hlen]; exact hi0), List.getElem_map]
      exact hsuf'
    · have h1 := hsuf.length_le
      have h2 := pyTailSlice_length_le hov (render (L.get ⟨i, hi0⟩))
      omega

/-- C4, witness for the amended theorem on a two-chunk run. -/
theorem overlap_suffix_amended_witness :
    ∃ t rest,
      (chunkByTokens [pyOf "abcdefgh", pyOf "ijklmnop"] 10 5).getD 1 [] =
        t ++ ' ' :: rest ∧
      t ≠ [] ∧
      t <:+ (chunkByTokens [pyOf "abcdefgh", pyOf "ijklmnop"] 10 5).getD 0 [] ∧
      t.length ≤ 5 :=
  overlap_suffix_amended [pyOf "abcdefgh", pyOf "ijklmnop"] 10 5
    (by decide) (by decide) 0 (by decide)

/-! ## Claim C5: no data loss -/

/-- C5: for every sequence of non-empty whitespace-trimmed unit texts, the
chunks of `_chunk_by_tokens` are, after removal of their overlap prefixes,
the space-joins of a partition of the unit sequence into contiguous
non-empty groups: no unit is dropped, duplicated (beyond the overlap) or
reordered, and the joined de-overlapped content equals the joined input. -/
theorem chunker_no_data_loss (sentences : List PyStr) (C ov : Nat)
    (htrim : TrimmedUnits sentences) :
    ∃ groups : List (List PyStr),
      groups.flatten = sentences ∧
      (∀ g ∈ groups, g ≠ []) ∧
      groups.length = (chunkByTokens sentences C ov).length ∧
      (∀ i, i < (chunkByTokens sentences C ov).length →
        ∃ pre, (chunkByTokens sentences C ov).getD i [] =
            pre ++ SJ (groups.getD i []) ∧
          (i = 0 → pre = [])) ∧
      SJ (groups.map SJ) = SJ sentences := by
  rcases chunkByTokens_run C ov sentences htrim with ⟨hnil, hout⟩ | ⟨qs, q, hrs, hout⟩
  · subst hnil
    refine ⟨[], rfl, by simp, by simp [hout], ?_, rfl⟩
    rw [hout]
    intro i hi
    simp at hi
  · obtain ⟨hflat, hmem, hhead, hchain⟩ := hrs
    set L := qs ++ [q] with hLdef
    have hgrne : ∀ g ∈ L.map Prod.snd, g ≠ [] := by
      intro g hg
      obtain ⟨p, hp, rfl⟩ := List.mem_map.mp hg
      exact (hmem p hp).1
    refine ⟨L.map Prod.snd, hflat, hgrne, ?_, ?_, ?_⟩
    · rw [hout]
      simp [List.length_map]
    · intro i hi
      rw [hout] at hi ⊢
      have hlen : (L.map render).length = L.length := List.length_map _ _
      have hiL : i < L.length := by rw [hlen] at hi; exact hi
      rw [List.getD_eq_getElem _ _ hi, List.getElem_map]
      have hgd : (L.map Prod.snd).getD i [] = L[i].2 := by
        rw [List.getD_eq_getElem _ _ (by rw [List.length_map]; exact hiL),
          List.getElem_map]
      rw [hgd]
      by_cases h1 : L[i].1 = []
      · exact ⟨[], by rw [List.nil_append]; exact render_eq_nil_pfx h1, fun _ => rfl⟩
      · refine ⟨L[i].1 ++ [' '], ?_, ?_⟩
        · rw [render_eq_pos_pfx h1, List.append_cons]
        · intro hi0
          subst hi0
          exfalso
          apply h1
          obtain ⟨x, L', hL⟩ : ∃ x L', L = x :: L' := by
            cases hL0 : L with
            | nil => rw [hL0] at hiL; simp at hiL
            | cons x L' => exact ⟨x, L', rfl⟩
          have hx := hhead x (by rw [hL]; rfl)
          have h0 : L[0]? = some x := by rw [hL]; simp
          rw [List.getElem?_eq_getElem hiL] at h0
          injection h0 with h00
          rw [h00]
          exact hx
    · rw [SJ_flatten hgrne, hflat]

/-- C5, witness on a three-unit, two-chunk run. -/
theorem chunker_no_data_loss_witness :
    ∃ groups : List (List PyStr),
      groups.flatten = [pyOf "aa", pyOf "bbb", pyOf "cc dd"] ∧
      (∀ g ∈ groups, g ≠ []) ∧
      groups.length = (chunkByTokens [pyOf "aa", pyOf "bbb", pyOf "cc dd"] 8 3).length ∧
      (∀ i, i < (chunkByTokens [pyOf "aa", pyOf "bbb", pyOf "cc dd"] 8 3).length →
        ∃ pre, (chunkByTokens [pyOf "aa", pyOf "bbb", pyOf "cc dd"] 8 3).getD i [] =
            pre ++ SJ (groups.getD i []) ∧
          (i = 0 → pre = [])) ∧
      SJ (groups.map SJ) = SJ [pyOf "aa", pyOf "bbb", pyOf "cc dd"] :=
  chunker_no_data_loss [pyOf "aa", pyOf "bbb", pyOf "cc dd"] 8 3 (by decide)

/-! ## Claim C6: chunk anchors of the yt.py chunker

The yt.py chunking loop is described by the same decomposition as the
ingest.py chunker, enriched with start times: one (overlap prefix, unit
group) pair per chunk, where the group's first unit is the unit that opened
the chunk and supplies its anchor. -/

/-- The chunk content described by an (overlap prefix, unit group) pair of
the yt.py chunker: the prefix (if any) followed by the space-join of the
group's texts. -/
def ytRender (p : PyStr × List (Nat × PyStr)) : PyStr :=
  render (p.1, p.2.map Prod.snd)

/-- The (start_seconds, content) chunk described by an (overlap prefix,
unit group) pair: the anchor is the start time of the group's first unit,
the unit that opened the chunk. -/
def ytChunkOf (p : PyStr × List (Nat × PyStr)) : Nat × PyStr :=
  ((p.2.headD (0, [])).1, ytRender p)

/-- Invariant of a yt.py chunker run over the consumed unit list `done`:
`qs` records one (overlap prefix, unit group) pair per chunk, the groups
partition `done` in order, every group is non-empty with trimmed texts,
every prefix is empty or starts with a non-whitespace character, and the
first chunk has no prefix. -/
def YtRunState (done : List (Nat × PyStr))
    (qs : List (PyStr × List (Nat × PyStr))) : Prop :=
  (qs.map Prod.snd).flatten = done ∧
  (∀ p ∈ qs, p.2 ≠ [] ∧ TrimmedUnits (p.2.map Prod.snd) ∧
    PfxOk (p.1, p.2.map Prod.snd)) ∧
  (∀ p ∈ qs.head?, p.1 = [])

theorem map_snd_ne_nil {p : PyStr × List (Nat × PyStr)} (hg : p.2 ≠ []) :
    p.2.map Prod.snd ≠ [] := by
  cases h : p.2 with
  | nil => exact absurd h hg
  | cons a t => simp

theorem ytRender_good {p : PyStr × List (Nat × PyStr)} (hg : p.2 ≠ [])
    (ht : TrimmedUnits (p.2.map Prod.snd))
    (hp : PfxOk (p.1, p.2.map Prod.snd)) :
    ytRender p ≠ [] ∧ NoLeadWs (ytRender p) ∧ NoTrailWs (ytRender p) :=
  render_good (map_snd_ne_nil hg) ht hp

theorem headD_append_singleton {α : Type} {g : List α} (h : g ≠ []) (u d : α) :
    (g ++ [u]).headD d = g.headD d := by
  cases g with
  | nil => exact absurd rfl h
  | cons a t => rfl

theorem render_append_single {t : PyStr} {g : List PyStr} (hg : g ≠ [])
    (s : PyStr) : render (t, g ++ [s]) = render (t, g) ++ ' ' :: s := by
  unfold render
  dsimp only
  by_cases h1 : t = []
  · rw [if_pos h1, if_pos h1, SJ_append_single hg]
  · rw [if_neg h1, if_neg h1, SJ_append_single hg]
    simp

theorem ytRender_snoc {q : PyStr × List (Nat × PyStr)} (hg : q.2 ≠ [])
    (u : Nat × PyStr) :
    ytRender (q.1, q.2 ++ [u]) = ytRender q ++ ' ' :: u.2 := by
  unfold ytRender
  dsimp only
  rw [List.map_append]
  simp only [List.map_cons, List.map_nil]
  exact render_append_single (map_snd_ne_nil hg) u.2

theorem ytRender_single {t : PyStr} (ht : t ≠ []) (u : Nat × PyStr) :
    ytRender (t, [u]) = t ++ ' ' :: u.2 := by
  unfold ytRender
  dsimp only
  simp only [List.map_cons, List.map_nil]
  rw [render_pos_pfx ht, SJ_single]

theorem ytChunkStep_run (C ov : Nat) {done : List (Nat × PyStr)}
    {qs : List (PyStr × List (Nat × PyStr))} {q : PyStr × List (Nat × PyStr)}
    {u : Nat × PyStr} (hrs : YtRunState done (qs ++ [q]))
    (hune : u.2 ≠ []) (hus : pyStrip u.2 = u.2) :
    ∃ qs' q', YtRunState (done ++ [u]) (qs' ++ [q']) ∧
      ytChunkStep C ov
          (qs.map ytChunkOf, some ((q.2.headD (0, [])).1), ytRender q) u =
        (qs'.map ytChunkOf, some ((q'.2.headD (0, [])).1), ytRender q') := by
  obtain ⟨hflat, hmem, hhead⟩ := hrs
  obtain ⟨hqg, hqt, hqp⟩ := hmem q (by simp)
  obtain ⟨hcurne, hcurlead, hcurtrail⟩ := ytRender_good hqg hqt hqp
  have hcurstr : pyStrip (ytRender q) = ytRender q :=
    pyStrip_eq_self hcurlead hcurtrail
  by_cases hfit : (ytRender q).length + 1 + u.2.length ≤ C
  · -- the unit is appended to the current chunk
    refine ⟨qs, (q.1, q.2 ++ [u]), ⟨?_, ?_, ?_⟩, ?_⟩
    · have hflat' : (qs.map Prod.snd).flatten ++ q.2 = done := by
        simpa [List.map_append, List.flatten_append] using hflat
      simp [List.map_append, List.flatten_append, ← List.append_assoc, hflat']
    · intro p hp
      rcases List.mem_append.mp hp with hp | hp
      · exact hmem p (List.mem_append_left _ hp)
      · rw [List.mem_singleton] at hp
        subst hp
        refine ⟨by simp, ?_, hqp⟩
        intro x hx
        rw [List.map_append] at hx
        rcases List.mem_append.mp hx with hx | hx
        · exact hqt x hx
        · simp only [List.map_cons, List.map_nil, List.mem_singleton] at hx
          subst hx
          exact ⟨hune, hus⟩
    · intro p hp
      cases qs with
      | nil =>
        cases hp
        exact hhead q rfl
      | cons x xs =>
        exact hhead p hp
    · simp only [ytChunkStep]
      rw [if_neg hcurne, if_pos hfit]
      rw [headD_append_singleton hqg u (0, []), ytRender_snoc hqg u]
  · -- the current chunk is closed; the unit opens a new chunk and anchors it
    have htailne : pyTailSlice (ytRender q) ov ≠ [] := pyTailSlice_ne_nil hcurne ov
    obtain ⟨c, hc⟩ : ∃ c, (ytRender q).getLast? = some c := by
      cases hgl : (ytRender q).getLast? with
      | none => exact absurd (List.getLast?_eq_none_iff.mp hgl) hcurne
      | some c => exact ⟨c, rfl⟩
    have htlast : (pyTailSlice (ytRender q) ov).getLast? = some c := by
      rw [getLast?_pyTailSlice hcurne ov, hc]
    have htdne : (pyTailSlice (ytRender q) ov).dropWhile pyIsSpace ≠ [] :=
      dropWhile_ne_nil_of_getLast htlast (hcurtrail c hc)
    refine ⟨qs ++ [q], ((pyTailSlice (ytRender q) ov).dropWhile pyIsSpace, [u]),
      ⟨?_, ?_, ?_⟩, ?_⟩
    · have hflat' : (qs.map Prod.snd).flatten ++ q.2 = done := by
        simpa [List.map_append, List.flatten_append] using hflat
      simp [List.map_append, List.flatten_append, ← List.append_assoc, hflat']
    · intro p hp
      rcases List.mem_append.mp hp with hp | hp
      · exact hmem p hp
      · rw [List.mem_singleton] at hp
        subst hp
        refine ⟨List.cons_ne_nil _ _, ?_, ?_⟩
        · intro x hx
          simp only [List.map_cons, List.map_nil, List.mem_singleton] at hx
          subst hx
          exact ⟨hune, hus⟩
        · cases htd : (pyTailSlice (ytRender q) ov).dropWhile pyIsSpace with
          | nil => exact absurd htd htdne
          | cons c' t'' =>
            refine Or.inr ⟨c', t'', rfl, ?_⟩
            apply dropWhile_head_not pyIsSpace (pyTailSlice (ytRender q) ov)
            rw [htd]
            rfl
    · intro p hp
      cases qs with
      | nil =>
        cases hp
        exact hhead q rfl
      | cons x xs =>
        exact hhead p hp
    · simp only [ytChunkStep]
      rw [if_neg hcurne, if_neg hfit]
      have hpush : pushChunk (qs.map ytChunkOf)
          (some ((q.2.headD (0, [])).1)) (ytRender q) =
          (qs ++ [q]).map ytChunkOf := by
        unfold pushChunk
        rw [if_neg hcurne, hcurstr, List.map_append]
        rfl
      have hcur' : pyStrip (pyTailSlice (ytRender q) ov ++ ' ' :: u.2) =
          (pyTailSlice (ytRender q) ov).dropWhile pyIsSpace ++ ' ' :: u.2 :=
        pyStrip_append_space_cons htdne hune (noTrailWs_of_stripped hus)
      rw [hpush, hcur', ytRender_single htdne u]
      rfl

theorem ytChunkFold_run (C ov : Nat) :
    ∀ (rest : List (Nat × PyStr)),
      (∀ u ∈ rest, u.2 ≠ [] ∧ pyStrip u.2 = u.2) →
    ∀ (done : List (Nat × PyStr)) (qs : List (PyStr × List (Nat × PyStr)))
      (q : PyStr × List (Nat × PyStr)),
      YtRunState done (qs ++ [q]) →
      ∃ qs' q', YtRunState (done ++ rest) (qs' ++ [q']) ∧
        List.foldl (ytChunkStep C ov)
            (qs.map ytChunkOf, some ((q.2.headD (0, [])).1), ytRender q) rest
          = (qs'.map ytChunkOf, some ((q'.2.headD (0, [])).1), ytRender q') := by
  intro rest
  induction rest with
  | nil =>
    intro _ done qs q hrs
    exact ⟨qs, q, by simpa using hrs, rfl⟩
  | cons u rest' ih =>
    intro htexts done qs q hrs
    obtain ⟨hu1, hu2⟩ := htexts u (List.mem_cons_self u rest')
    obtain ⟨qs1, q1, hrs1, hstep⟩ := ytChunkStep_run C ov hrs hu1 hu2
    have htexts' : ∀ x ∈ rest', x.2 ≠ [] ∧ pyStrip x.2 = x.2 :=
      fun x hx => htexts x (List.mem_cons_of_mem u hx)
    obtain ⟨qs', q', hrs', hfold⟩ := ih htexts' (done ++ [u]) qs1 q1 hrs1
    refine ⟨qs', q', ?_, ?_⟩
    · have hre : done ++ u :: rest' = (done ++ [u]) ++ rest' := by simp
      rw [hre]
      exact hrs'
    · rw [List.foldl_cons, hstep, hfold]

theorem ytChunkByTokens_run (C ov : Nat) (sents : List (Nat × PyStr))
    (h : ∀ u ∈ sents, u.2 ≠ [] ∧ pyStrip u.2 = u.2) :
    (sents = [] ∧ ytChunkByTokens sents C ov = []) ∨
    (∃ qs q, YtRunState sents (qs ++ [q]) ∧
      ytChunkByTokens sents C ov = (qs ++ [q]).map ytChunkOf) := by
  cases sents with
  | nil => exact Or.inl ⟨rfl, rfl⟩
  | cons u rest =>
    right
    obtain ⟨hu1, hu2⟩ := h u (List.mem_cons_self u rest)
    have hfirst : ytChunkStep C ov ([], none, []) u = ([], some u.1, u.2) := rfl
    have hrs0 : YtRunState [u]
        (([] : List (PyStr × List (Nat × PyStr))) ++ [([], [u])]) := by
      refine ⟨by simp, ?_, ?_⟩
      · intro p hp
        rw [List.nil_append, List.mem_singleton] at hp
        subst hp
        refine ⟨List.cons_ne_nil _ _, ?_, Or.inl rfl⟩
        intro x hx
        simp only [List.map_cons, List.map_nil, List.mem_singleton] at hx
        subst hx
        exact ⟨hu1, hu2⟩
      · intro p hp
        cases hp
        rfl
    obtain ⟨qs', q', hrs', hfold⟩ :=
      ytChunkFold_run C ov rest (fun x hx => h x (List.mem_cons_of_mem u hx))
        [u] [] ([], [u]) hrs0
    have hr0 : ytRender ([], [u]) = u.2 := by
      unfold ytRender
      dsimp only
      simp only [List.map_cons, List.map_nil]
      rw [render_nil_pfx, SJ_single]
    simp only [List.map_nil, List.headD_cons, hr0] at hfold
    have hq'good := hrs'.2.1 q' (by simp)
    have hq'all := ytRender_good hq'good.1 hq'good.2.1 hq'good.2.2
    have hq'str : pyStrip (ytRender q') = ytRender q' :=
      pyStrip_eq_self hq'all.2.1 hq'all.2.2
    refine ⟨qs', q', hrs', ?_⟩
    unfold ytChunkByTokens
    dsimp only
    rw [List.foldl_cons, hfirst, hfold]
    dsimp only
    unfold pushChunk
    rw [if_neg hq'all.1, hq'str, List.map_append]
    rfl

theorem headD_sublist_flatten {α : Type} (d : α) :
    ∀ (gs : List (List α)), (∀ g ∈ gs, g ≠ []) →
      (gs.map (fun g => g.headD d)).Sublist gs.flatten := by
  intro gs
  induction gs with
  | nil => intro _; exact List.Sublist.refl []
  | cons g rest ih =>
    intro h
    have hg : g ≠ [] := h g (List.mem_cons_self _ _)
    have hrest := ih (fun x hx => h x (List.mem_cons_of_mem _ hx))
    cases g with
    | nil => exact absurd rfl hg
    | cons a t =>
      rw [List.map_cons, List.flatten_cons]
      show (a :: rest.map (fun g => g.headD d)).Sublist (a :: (t ++ rest.flatten))
      exact List.Sublist.cons₂ a (hrest.trans (List.sublist_append_right t _))

/-- C6: for every unit sequence with non-empty, stripped texts whose start
times are non-decreasing, the chunks of the yt.py chunker are described by a
partition of the units into contiguous non-empty groups, one group per chunk
in order: each chunk's anchor `start_seconds` equals the start time of its
group's first unit — the unit that opened that chunk (the first unit for the
first chunk, the triggering unit for every later chunk), never a time drawn
from the overlap prefix, which contributes only the `pre` text (empty for
the first chunk) before the group's space-joined texts — and consequently
the chunk anchors are non-decreasing. -/
theorem yt_anchor_monotone (maxC ovC : Nat) (sents : List (Nat × PyStr))
    (htexts : ∀ u ∈ sents, u.2 ≠ [] ∧ pyStrip u.2 = u.2)
    (hsort : List.Pairwise (· ≤ ·) (sents.map Prod.fst)) :
    ∃ groups : List (List (Nat × PyStr)),
      groups.flatten = sents ∧
      (∀ g ∈ groups, g ≠ []) ∧
      groups.length = (ytChunkByTokens sents maxC ovC).length ∧
      (∀ j, j < (ytChunkByTokens sents maxC ovC).length →
        ((ytChunkByTokens sents maxC ovC).getD j (0, [])).1 =
          ((groups.getD j []).headD (0, [])).1 ∧
        ∃ pre, ((ytChunkByTokens sents maxC ovC).getD j (0, [])).2 =
            pre ++ SJ ((groups.getD j []).map Prod.snd) ∧
          (j = 0 → pre = [])) ∧
      List.Pairwise (· ≤ ·) ((ytChunkByTokens sents maxC ovC).map Prod.fst) := by
  rcases ytChunkByTokens_run maxC ovC sents htexts with
    ⟨hnil, hout⟩ | ⟨qs, q, hrs, hout⟩
  · subst hnil
    refine ⟨[], rfl, by simp, by simp [hout], ?_, by simp [hout]⟩
    rw [hout]
    intro j hj
    simp at hj
  · obtain ⟨hflat, hmem, hhead⟩ := hrs
    set L := qs ++ [q] with hLdef
    have hgrne : ∀ g ∈ L.map Prod.snd, g ≠ [] := by
      intro g hg
      obtain ⟨p, hp, rfl⟩ := List.mem_map.mp hg
      exact (hmem p hp).1
    refine ⟨L.map Prod.snd, hflat, hgrne, ?_, ?_, ?_⟩
    · rw [hout]
      simp [List.length_map]
    · intro j hj
      rw [hout] at hj ⊢
      have hlen : (L.map ytChunkOf).length = L.length := List.length_map _ _
      have hjL : j < L.length := by rw [hlen] at hj; exact hj
      rw [List.getD_eq_getElem _ _ hj, List.getElem_map]
      have hgd : (L.map Prod.snd).getD j [] = L[j].2 := by
        rw [List.getD_eq_getElem _ _ (by rw [List.length_map]; exact hjL),
          List.getElem_map]
      rw [hgd]
      refine ⟨rfl, ?_⟩
      by_cases h1 : L[j].1 = []
      · refine ⟨[], ?_, fun _ => rfl⟩
        rw [List.nil_append]
        exact render_eq_nil_pfx h1
      · refine ⟨L[j].1 ++ [' '], ?_, ?_⟩
        · show ytRender L[j] = (L[j].1 ++ [' ']) ++ SJ (L[j].2.map Prod.snd)
          unfold ytRender
          rw [render_eq_pos_pfx h1, List.append_cons]
        · intro hj0
          subst hj0
          exfalso
          apply h1
          obtain ⟨x, L', hL⟩ : ∃ x L', L = x :: L' := by
            cases hL0 : L with
            | nil => rw [hL0] at hjL; simp at hjL
            | cons x L' => exact ⟨x, L', rfl⟩
          have hx := hhead x (by rw [hL]; rfl)
          have h0 : L[0]? = some x := by rw [hL]; simp
          rw [List.getElem?_eq_getElem hjL] at h0
          injection h0 with h00
          rw [h00]
          exact hx
    · have hsub1 := headD_sublist_flatten ((0 : Nat), ([] : PyStr))
        (L.map Prod.snd) hgrne
      rw [hflat] at hsub1
      have hsub2 := hsub1.map Prod.fst
      have hanch : (L.map ytChunkOf).map Prod.fst =
          ((L.map Prod.snd).map
            (fun g => g.headD ((0 : Nat), ([] : PyStr)))).map Prod.fst := by
        simp only [List.map_map]
        rfl
      rw [hout, hanch]
      exact List.Pairwise.sublist hsub2 hsort

/-- C6, witness on a concrete three-unit, two-chunk run. -/
theorem yt_anchor_monotone_witness :
    ∃ groups : List (List (Nat × PyStr)),
      groups.flatten = [(5, pyOf "hello there"), (9, pyOf "more words"),
        (14, pyOf "and the next segment")] ∧
      (∀ g ∈ groups, g ≠ []) ∧
      groups.length = (ytChunkByTokens [(5, pyOf "hello there"),
        (9, pyOf "more words"), (14, pyOf "and the next segment")] 30 8).length ∧
      (∀ j, j < (ytChunkByTokens [(5, pyOf "hello there"), (9, pyOf "more words"),
          (14, pyOf "and the next segment")] 30 8).length →
        ((ytChunkByTokens [(5, pyOf "hello there"), (9, pyOf "more words"),
            (14, pyOf "and the next segment")] 30 8).getD j (0, [])).1 =
          ((groups.getD j []).headD (0, [])).1 ∧
        ∃ pre, ((ytChunkByTokens [(5, pyOf "hello there"), (9, pyOf "more words"),
            (14, pyOf "and the next segment")] 30 8).getD j (0, [])).2 =
            pre ++ SJ ((groups.getD j []).map Prod.snd) ∧
          (j = 0 → pre = [])) ∧
      List.Pairwise (· ≤ ·) ((ytChunkByTokens [(5, pyOf "hello there"),
        (9, pyOf "more words"), (14, pyOf "and the next segment")] 30 8).map
          Prod.fst) :=
  yt_anchor_monotone 30 8
    [(5, pyOf "hello there"), (9, pyOf "more words"), (14, pyOf "and the next segment")]
    (by decide) (by decide)

/-! ## Claim C2: batch isolation and error classification -/

/-- C2: for every service behaviour (including raised exceptions, embedded
as `Except.error`) and every URL list, `ingest_youtube_urls` returns exactly
one outcome per URL in input order, equal to the per-item pipeline applied
to that URL alone (so one item's failure cannot change any other item's
outcome, and no exception propagates to the batch caller), and the per-item
pipeline classifies failures as claimed: metadata exception →
`metadata_fetch_failed`, transcript-fetch exception →
`transcript_fetch_failed`, empty transcript → `no_transcript`,
index-submission exception → `embedding_failed`, and success → `ok` with
the chunk count. -/
theorem ingest_batch_isolation (svc : IngestServices) (urls : List String) :
    (ingest_youtube_urls svc urls).length = urls.length ∧
    ingest_youtube_urls svc urls = urls.map (processUrl svc) ∧
    (∀ url e, svc.getVideoMetadata url = .error e →
      processUrl svc url =
        { url := url, status := "error", error := some e,
          errorType := some "metadata_fetch_failed",
          errorDetails := some "Failed to fetch video metadata. The video might be unavailable or restricted." }) ∧
    (∀ url vid dur title e, svc.getVideoMetadata url = .ok (vid, dur, title) →
      svc.fetchTranscriptChunks vid url title = .error e →
      processUrl svc url =
        { url := url, status := "error", error := some e,
          errorType := some "transcript_fetch_failed",
          errorDetails := some "Failed to fetch video transcript. The video might be unavailable or have no captions." }) ∧
    (∀ url vid dur title, svc.getVideoMetadata url = .ok (vid, dur, title) →
      svc.fetchTranscriptChunks vid url title = .ok [] →
      processUrl svc url =
        { url := url, status := "error",
          errorType := some "no_transcript",
          errorDetails := some "No transcript available for this video. It might be private, age-restricted, or have no captions." }) ∧
    (∀ url vid dur title tchunks e, svc.getVideoMetadata url = .ok (vid, dur, title) →
      svc.fetchTranscriptChunks vid url title = .ok tchunks → tchunks ≠ [] →
      svc.addDocuments tchunks = .error e →
      processUrl svc url =
        { url := url, status := "error", error := some e,
          errorType := some "embedding_failed",
          errorDetails := some "Failed to create embeddings. Check your OpenAI API key format in .env file." }) ∧
    (∀ url vid dur title tchunks, svc.getVideoMetadata url = .ok (vid, dur, title) →
      svc.fetchTranscriptChunks vid url title = .ok tchunks → tchunks ≠ [] →
      svc.addDocuments tchunks = .ok () →
      processUrl svc url =
        { url := url, status := "ok", chunks := some tchunks.length }) := by
  have hmap : ∀ (us : List String) (acc : List IngestOutcome),
      us.foldl (fun results url => results ++ [processUrl svc url]) acc =
        acc ++ us.map (processUrl svc) := by
    intro us
    induction us with
    | nil => intro acc; simp
    | cons u t ih =>
      intro acc
      rw [List.foldl_cons, ih]
      simp
  have hm : ingest_youtube_urls svc urls = urls.map (processUrl svc) := by
    unfold ingest_youtube_urls
    rw [hmap]
    simp
  refine ⟨by rw [hm]; simp, hm, ?_, ?_, ?_, ?_, ?_⟩
  · intro url e hmeta
    unfold processUrl
    rw [hmeta]
  · intro url vid dur title e hmeta hfetch
    unfold processUrl
    rw [hmeta]
    dsimp only
    rw [hfetch]
  · intro url vid dur title hmeta hfetch
    unfold processUrl
    rw [hmeta]
    dsimp only
    rw [hfetch]
    dsimp only
    rw [if_pos rfl]
  · intro url vid dur title tchunks e hmeta hfetch hne hadd
    unfold processUrl
    rw [hmeta]
    dsimp only
    rw [hfetch]
    dsimp only
    rw [if_neg hne, hadd]
  · intro url vid dur title tchunks hmeta hfetch hne hadd
    unfold processUrl
    rw [hmeta]
    dsimp only
    rw [hfetch]
    dsimp only
    rw [if_neg hne, hadd]

/-- Concrete services for the C2 witness: metadata fails for the first URL
and succeeds for the second, which then ingests one chunk. -/
def svcC2 : IngestServices where
  getVideoMetadata := fun url =>
    if url = "https://a" then .error "boom" else .ok ("vid", 100, "T")
  fetchTranscriptChunks := fun _ _ _ => .ok [{ pageContent := pyOf "hello" }]
  addDocuments := fun _ => .ok ()

/-- C2, witness: the theorem applied to `svcC2` on a two-URL batch. -/
theorem ingest_batch_isolation_witness :
    processUrl svcC2 "https://a" =
      { url := "https://a", status := "error", error := some "boom",
        errorType := some "metadata_fetch_failed",
        errorDetails := some "Failed to fetch video metadata. The video might be unavailable or restricted." } ∧
    processUrl svcC2 "https://b" =
      { url := "https://b", status := "ok", chunks := some 1 } ∧
    ingest_youtube_urls svcC2 ["https://a", "https://b"] =
      ["https://a", "https://b"].map (processUrl svcC2) :=
  ⟨(ingest_batch_isolation svcC2 ["https://a", "https://b"]).2.2.1
      "https://a" "boom" rfl,
   (ingest_batch_isolation svcC2 ["https://a", "https://b"]).2.2.2.2.2.2
      "https://b" "vid" 100 "T" [{ pageContent := pyOf "hello" }]
      rfl rfl (by decide) rfl,
   (ingest_batch_isolation svcC2 ["https://a", "https://b"]).2.1⟩

/-! ## Claim C3: transcript acquisition preference order -/

/-- Concrete transcript service for C3: the listing offers an auto-generated
English transcript with segments `[1]` and a manual English transcript with
segments `[2]`. -/
def apiC3 : YtApi Nat where
  list := fun _ =>
    .ok { findGeneratedTranscriptEn := .ok [1], findTranscriptEn := .ok [2] }
  fetch := fun _ _ => .error (.caught "no transcript")

/-- C3, counterexample.  The claim says a manual target-language transcript
is preferred, so whenever one exists its segments are used.  Against
`apiC3` a manual English transcript exists (segments `[2]`) yet the code
returns the auto-generated transcript's segments `[1]`: the code tries
`find_generated_transcript(['en'])` before `find_transcript(['en'])`. -/
theorem transcript_order_counterexample :
    acquireSegments apiC3 "vid" = [1] ∧
    apiC3.list "vid" = .ok { findGeneratedTranscriptEn := .ok [1],
                             findTranscriptEn := .ok [2] } ∧
    ([1] : List Nat) ≠ [2] := by
  refine ⟨by decide, rfl, by decide⟩

/-- C3 (amended): the acquisition order is auto-generated English transcript
first, then any English transcript (the manual fallback), then the direct
fetch over the candidate list `["en"], ["en-US"], ["en-GB"], ["auto"]`; the
code stops at the first source whose segments are non-empty, and a listing
lookup that succeeds with zero segments still falls through to the direct
fetch. -/
theorem transcript_order_amended {α : Type} (api : YtApi α) (vid : String) :
    (∀ listing gsegs, api.list vid = .ok listing →
      listing.findGeneratedTranscriptEn = .ok gsegs → gsegs ≠ [] →
      acquireSegments api vid = gsegs) ∧
    (∀ listing e msegs, api.list vid = .ok listing →
      listing.findGeneratedTranscriptEn = .error e →
      listing.findTranscriptEn = .ok msegs → msegs ≠ [] →
      acquireSegments api vid = msegs) ∧
    (∀ listing e e', api.list vid = .ok listing →
      listing.findGeneratedTranscriptEn = .error e →
      listing.findTranscriptEn = .error e' →
      acquireSegments api vid = directResult api vid) ∧
    (∀ e, api.list vid = .error e →
      acquireSegments api vid = directResult api vid) ∧
    (∀ listing, api.list vid = .ok listing →
      listing.findGeneratedTranscriptEn = .ok [] →
      acquireSegments api vid = directResult api vid) ∧
    (∀ segs, api.fetch vid ["en"] = .ok segs →
      directFetchLoop api vid directFetchLangs = .ok segs) ∧
    (∀ m segs, api.fetch vid ["en"] = .error (.caught m) →
      api.fetch vid ["en-US"] = .ok segs →
      directFetchLoop api vid directFetchLangs = .ok segs) := by
  refine ⟨?_, ?_, ?_, ?_, ?_, ?_, ?_⟩
  · intro listing gsegs hlist hgen hne
    unfold acquireSegments
    rw [hlist]
    dsimp only
    rw [hgen]
    dsimp only
    rw [if_neg (by simpa [List.isEmpty_iff] using hne)]
  · intro listing e msegs hlist hgen hman hne
    unfold acquireSegments
    rw [hlist]
    dsimp only
    rw [hgen]
    dsimp only
    rw [hman]
    dsimp only
    rw [if_neg (by simpa [List.isEmpty_iff] using hne)]
  · intro listing e e' hlist hgen hman
    unfold acquireSegments
    rw [hlist]
    dsimp only
    rw [hgen]
    dsimp only
    rw [hman]
    rfl
  · intro e hlist
    unfold acquireSegments
    rw [hlist]
    rfl
  · intro listing hlist hgen
    unfold acquireSegments
    rw [hlist]
    dsimp only
    rw [hgen]
    rfl
  · intro segs hfetch
    unfold directFetchLoop directFetchLangs
    dsimp only
    rw [hfetch]
  · intro m segs hfetch1 hfetch2
    unfold directFetchLoop directFetchLangs
    dsimp only
    rw [hfetch1]
    dsimp only
    unfold directFetchLoop
    rw [hfetch2]

/-- C3, witness: the amended first-preference rule applied to `apiC3`. -/
theorem transcript_order_amended_witness :
    acquireSegments apiC3 "vid" = [1] :=
  (transcript_order_amended apiC3 "vid").1
    { findGeneratedTranscriptEn := .ok [1], findTranscriptEn := .ok [2] }
    [1] rfl rfl (by decide)

/-! ## Claim C7: estimated duration and synthetic anchors -/

theorem pyInt_of_nonneg {x : ℚ} (h : 0 ≤ x) : pyInt x = ⌊x⌋ := if_pos h

theorem nat_floor_div (a b : Nat) :
    ⌊((a : ℚ) / (b : ℚ))⌋ = ((a / b : Nat) : Int) := by
  have h := Rat.floor_intCast_div_natCast (a : Int) b
  rw [show (((a : Int) : ℚ)) = (a : ℚ) by push_cast; ring] at h
  rw [h]
  exact (Int.ofNat_ediv a b).symm

/-- C7, counterexample.  The claim asserts that chunk `i` of `n` is
anchored at `max(0, floor(i / n * duration))` for every document.  In
binary64 arithmetic the double nearest `1/49` is `5882252574524729 * 2^-58`,
slightly below `1/49`, and its product with `49` rounds to `1 - 2^-53`, so
Python computes `int((1 / 49) * 49) = 0` while `floor(1/49 * 49) = 1`: at
`i = 1`, `n = 49`, `duration = 49` (e.g. a 131-word body split into 49
chunks, since `int(131 * 0.375) = 49`) the program assigns anchor 0, not
the claimed 1. -/
theorem md_anchor_float_counterexample :
    mdStartSeconds 1 49 49 = 0 ∧ 1 * 49 / 49 = 1 ∧
    mdStartSeconds 1 49 49 ≠ 1 * 49 / 49 := by
  with_unfolding_all decide

/-- C7 (amended): whenever the intermediate binary64 roundings are exact —
`roundDouble` fixes the word count and its product with `0.375`,
respectively the duration, the quotient `i / n` and the final product — the
estimated duration equals the integer truncation of `word_count * 0.375`,
i.e. `3 * words / 8`, and chunk `i` of `n` is anchored at
`max(0, floor(i / n * duration)) = i * duration / n`; the document-assembly
loop of `ingest_markdown_folder` assigns exactly `mdStartSeconds` anchors to
the chunks in order, and the spec's 300-word instance is float-exact:
duration 112 with four-chunk anchors 0, 28, 56, 84.  Without the exactness
hypotheses the floor formula fails (see the counterexample). -/
theorem md_duration_and_anchors :
    (∀ words : Nat,
      roundDouble (words : ℚ) = (words : ℚ) →
      roundDouble ((words : ℚ) * (0.375 : ℚ)) = (words : ℚ) * (0.375 : ℚ) →
      estimateDurationSeconds words = words * 3 / 8) ∧
    (∀ i n d : Nat, i < n →
      roundDouble (d : ℚ) = (d : ℚ) →
      roundDouble ((i : ℚ) / (n : ℚ)) = (i : ℚ) / (n : ℚ) →
      roundDouble ((i : ℚ) / (n : ℚ) * (d : ℚ)) = (i : ℚ) / (n : ℚ) * (d : ℚ) →
      mdStartSeconds i n d = i * d / n) ∧
    (∀ (chunks : List PyStr) (words i : Nat), i < chunks.length →
      (mdAssignTimestamps chunks 0 words).getD i ([], 0) =
        (chunks.getD i [],
          mdStartSeconds i chunks.length (estimateDurationSeconds words))) ∧
    estimateDurationSeconds 300 = 112 ∧
    mdStartSeconds 0 4 112 = 0 ∧ mdStartSeconds 1 4 112 = 28 ∧
    mdStartSeconds 2 4 112 = 56 ∧ mdStartSeconds 3 4 112 = 84 := by
  have hzip : ∀ {β : Type} (chunks : List PyStr) (f : Nat × PyStr → β) (d : β)
      (i : Nat), i < chunks.length →
      (((List.range chunks.length).zip chunks).map f).getD i d =
        f (i, chunks.getD i []) := by
    intro β chunks f d i hi
    have hlen : (((List.range chunks.length).zip chunks).map f).length =
        chunks.length := by
      simp [List.length_zip, List.length_range]
    rw [List.getD_eq_getElem _ _ (by rw [hlen]; exact hi), List.getElem_map,
      List.getElem_zip, List.getElem_range]
    rw [List.getD_eq_getElem _ _ hi]
  refine ⟨?_, ?_, ?_, by with_unfolding_all decide, by with_unfolding_all decide,
    by with_unfolding_all decide, by with_unfolding_all decide,
    by with_unfolding_all decide⟩
  · intro words hw hmul
    unfold estimateDurationSeconds
    rw [hw, hmul]
    rw [pyInt_of_nonneg (by positivity)]
    rw [show ((words : ℚ) * (0.375 : ℚ)) = ((words * 3 : Nat) : ℚ) / ((8 : Nat) : ℚ) by
      push_cast
      ring]
    rw [nat_floor_div]
    exact Int.toNat_ofNat _
  · intro i n d hin hd hdiv hmul
    have hn : 1 ≤ n := by omega
    have hmax : max 1 n = n := max_eq_right hn
    unfold mdStartSeconds mdSyntheticStart
    rw [hmax, hd, hdiv, hmul]
    rw [pyInt_of_nonneg (by positivity)]
    rw [show ((i : ℚ) / ((n : Nat) : ℚ) * (d : ℚ)) =
        ((i * d : Nat) : ℚ) / ((n : Nat) : ℚ) by
      push_cast
      ring]
    rw [nat_floor_div]
    rw [max_eq_right (Int.natCast_nonneg _)]
    exact Int.toNat_ofNat _
  · intro chunks words i hi
    unfold mdAssignTimestamps
    dsimp only
    rw [if_pos (Nat.le_refl 0)]
    rw [hzip chunks _ _ i hi]

/-- C7, witness: the amended duration and anchor formulas applied at the
spec's float-exact 300-word, four-chunk instance. -/
theorem md_duration_and_anchors_witness :
    estimateDurationSeconds 300 = 300 * 3 / 8 ∧
    mdStartSeconds 1 4 112 = 1 * 112 / 4 ∧
    mdStartSeconds 3 4 112 = 3 * 112 / 4 :=
  ⟨md_duration_and_anchors.1 300 (by with_unfolding_all decide)
     (by with_unfolding_all decide),
   md_duration_and_anchors.2.1 1 4 112 (by omega) (by with_unfolding_all decide)
     (by with_unfolding_all decide) (by with_unfolding_all decide),
   md_duration_and_anchors.2.1 3 4 112 (by omega) (by with_unfolding_all decide)
     (by with_unfolding_all decide) (by with_unfolding_all decide)⟩

/-! ## Claim C8: empty-candidate short circuit -/

/-- C8: if the stage-1 similarity search returns zero candidates,
`VectorStore.search` returns the empty result list immediately; the result
is the same for every reranking service, so the reranker is never invoked
for that query. -/
theorem search_empty_short_circuit
    (simSearch : String → Nat → Except PyErr (List (TranscriptDoc × ℚ)))
    (rerank : String → List TranscriptDoc → Except PyErr (List (TranscriptDoc × Option ℚ)))
    (query : String) (h : simSearch query 20 = .ok []) :
    vectorStoreSearch simSearch rerank query = .ok [] := by
  unfold vectorStoreSearch
  rw [h]
  rfl

/-- Stage-1 search of the C8 witness: no candidates. -/
def simSearchC8 : String → Nat → Except PyErr (List (TranscriptDoc × ℚ)) :=
  fun _ _ => .ok []

/-- Reranker of the C8 witness: fails loudly if ever invoked. -/
def rerankC8 : String → List TranscriptDoc → Except PyErr (List (TranscriptDoc × Option ℚ)) :=
  fun _ _ => .error "reranker must not be called"

/-- C8, witness: with zero candidates the search succeeds with an empty
list even though the reranker would fail if consulted. -/
theorem search_empty_short_circuit_witness :
    vectorStoreSearch simSearchC8 rerankC8 "q" = .ok [] :=
  search_empty_short_circuit simSearchC8 rerankC8 "q" rfl

/-! ## Claim C9: header extraction -/

/-- C9: on the spec's example the header extractor returns exactly the URL
`https://x/y` and the body `Body text.`, both delimiter lines removed; and
every input whose first line does not strip to the bare `---` delimiter is
returned unchanged with no URL. -/
theorem header_extraction_spec :
    extract_header_url (pyOf "---\nyoutube_url: https://x/y\n---\nBody text.") =
      (some (pyOf "https://x/y"), pyOf "Body text.") ∧
    ∀ raw : PyStr, pyStrip ((pySplitlines raw).getD 0 []) ≠ dashes →
      extract_header_url raw = (none, raw) := by
  constructor
  · decide
  · intro raw h
    unfold extract_header_url
    dsimp only
    rw [if_neg (fun hc => h hc.2)]

/-- C9, witness: an input whose first line is not a delimiter is returned
unchanged. -/
theorem header_extraction_spec_witness :
    extract_header_url (pyOf "no header here") = (none, pyOf "no header here") :=
  header_extraction_spec.2 (pyOf "no header here") (by decide)

/-! ## Claim C10: the /search endpoint passes an unaccepted keyword -/

/-- C10: for every query, every `k` and every service behaviour, the
`/search` endpoint's call `vs.search(q, k=k)` fails to bind against
`VectorStore.search(self, query)` — the keyword `k` names no parameter —
so the endpoint raises (and re-raises) a `TypeError` and never returns a
result list. -/
theorem search_endpoint_type_error
    (simSearch : String → Nat → Except PyErr (List (TranscriptDoc × ℚ)))
    (rerank : String → List TranscriptDoc → Except PyErr (List (TranscriptDoc × Option ℚ)))
    (q : String) (k : Int) :
    searchEndpoint simSearch rerank q k =
      .error "TypeError: search() got an unexpected keyword argument k" ∧
    ∀ items, searchEndpoint simSearch rerank q k ≠ .ok items := by
  have h : searchEndpoint simSearch rerank q k =
      .error "TypeError: search() got an unexpected keyword argument k" := by
    unfold searchEndpoint pyBindKwargs vectorStoreSearchParams searchCallKwargs
    rfl
  refine ⟨h, ?_⟩
  intro items hok
  rw [h] at hok
  exact Except.noConfusion hok

end PodcastRag
